import Mathlib

/-!
Shallow embedding of the LiteJSON server (a small JSON-file HTTP backend).

Modelling conventions:
* Strings are modelled as `List Char` (`Str`), so all definitions are
  executable and provable by structural induction.
* The filesystem is modelled as an association list from full path to file
  content (`FS`); `fsGet`, `fsSet`, `fsDel` mirror read / whole-file write /
  unlink.  Filesystem calls that can throw are driven by explicit fault
  flags, one per `fs.*Sync` call site in the source.
* JSON documents are the inductive `Json`; `JSON.stringify(data, null, 2)`
  is abstracted as an arbitrary serialisation argument where only the bytes
  written matter to the claims, since serialisation is a pure function of
  the document.
* `path.join(dir, component)` for an already-normalised `dir` and a plain
  single component (no separators, not `.`/`..`) is `dir ++ "/" ++ component`;
  directories are carried as abstract normalised strings.
-/

abbrev Str := List Char

/-- Generic association-list lookup (models `Map.get` / object index). -/
def findKey {α : Type} : List (Str × α) → Str → Option α
  | [], _ => none
  | (k, v) :: rest, t => if k = t then some v else findKey rest t

/-- Remove every binding of a key (models `Map.delete`). -/
def delKey {α : Type} (m : List (Str × α)) (t : Str) : List (Str × α) :=
  m.filter (fun p => !(p.1 = t : Bool))

/-- Insert or overwrite a binding (models `Map.set`). -/
def setKey {α : Type} (m : List (Str × α)) (t : Str) (v : α) : List (Str × α) :=
  (t, v) :: delKey m t

theorem findKey_setKey_self {α : Type} (m : List (Str × α)) (t : Str) (v : α) :
    findKey (setKey m t v) t = some v := by
  simp [setKey, findKey]

theorem findKey_delKey_self {α : Type} (m : List (Str × α)) (t : Str) :
    findKey (delKey m t) t = none := by
  induction m with
  | nil => rfl
  | cons p rest ih =>
    by_cases h : p.1 = t
    · simpa [delKey, h] using ih
    · simpa [delKey, findKey, h] using ih

theorem delKey_idem {α : Type} (m : List (Str × α)) (t : Str) :
    delKey (delKey m t) t = delKey m t := by
  simp [delKey, List.filter_filter]

/-! ### Path handling (`src/core/fileManager.ts`) -/

/-- Characters accepted by the sanitiser character class `[a-zA-Z0-9._-]`. -/
def safeChar (c : Char) : Bool :=
  (('a' ≤ c && c ≤ 'z') || ('A' ≤ c && c ≤ 'Z') || ('0' ≤ c && c ≤ '9') ||
   c = '.' || c = '_' || c = '-')

/-- Node `path.posix.basename`: drop trailing separators, then keep the
suffix after the last remaining separator (empty for an all-separator path). -/
def basename (p : Str) : Str :=
  ((p.reverse.dropWhile (fun c => c = '/')).takeWhile (fun c => !(c = '/' : Bool))).reverse

/-- `FileManager.sanitizeFilename`:
`path.basename(filename).replace(/[^a-zA-Z0-9._-]/g, '_')`. -/
def sanitizeFilename (filename : Str) : Str :=
  (basename filename).map (fun c => if safeChar c then c else '_')

/-- The store's file extension `".json"` as a character list. -/
def jsonExt : Str := ['.', 'j', 's', 'o', 'n']

/-- Whether the string ends with `.json`, case-insensitively on the letters —
the match condition of the regex `/\.json$/i`. -/
def endsWithJsonCI (s : Str) : Bool :=
  match s.reverse with
  | n :: o :: c :: j :: d :: _ =>
      d = '.' && (j = 'j' || j = 'J') && (c = 's' || c = 'S') &&
      (o = 'o' || o = 'O') && (n = 'n' || n = 'N')
  | _ => false

/-- `sanitizedFilename.replace(/\.json$/i, '')`: strip one trailing `.json`
(case-insensitive) if present. -/
def stripJsonExt (s : Str) : Str :=
  if endsWithJsonCI s then s.take (s.length - 5) else s

/-- `FileManager.getFilePath`: sanitise, strip an existing `.json` suffix,
re-append the extension and join onto the data directory. -/
def getFilePath (dataDir filename : Str) : Str :=
  dataDir ++ '/' :: (stripJsonExt (sanitizeFilename filename) ++ jsonExt)

theorem sanitizeFilename_safe (filename : Str) :
    (sanitizeFilename filename).all safeChar = true := by
  simp only [sanitizeFilename, List.all_eq_true]
  intro c hc
  rcases List.mem_map.1 hc with ⟨a, _, rfl⟩
  by_cases h : safeChar a
  · simp [h]
  · simp [h]; decide

theorem stripJsonExt_sublist (s : Str) : (stripJsonExt s).Sublist s := by
  unfold stripJsonExt
  split
  · exact List.take_sublist _ _
  · exact List.Sublist.refl s

theorem stripJsonExt_safe (s : Str) (h : s.all safeChar = true) :
    (stripJsonExt s).all safeChar = true := by
  simp only [List.all_eq_true] at h ⊢
  exact fun c hc => h c ((stripJsonExt_sublist s).mem hc)

theorem stripJsonExt_append_ext (s : Str) : stripJsonExt (s ++ jsonExt) = s := by
  have hrev : (s ++ jsonExt).reverse = 'n' :: 'o' :: 's' :: 'j' :: '.' :: s.reverse := by
    simp [jsonExt]
  have hle : endsWithJsonCI (s ++ jsonExt) = true := by
    simp [endsWithJsonCI, hrev]
  have hlen : (s ++ jsonExt).length - 5 = s.length := by
    simp [jsonExt]
  simp only [stripJsonExt, hle, if_true, hlen]
  exact List.take_left' rfl

/-! ### Filesystem model -/

/-- The filesystem: full path to file content. -/
abbrev FS := List (Str × Str)

def fsGet (fs : FS) (p : Str) : Option Str := findKey fs p

def fsSet (fs : FS) (p : Str) (content : Str) : FS := setKey fs p content

def fsDel (fs : FS) (p : Str) : FS := delKey fs p

theorem findKey_delKey_ne {α : Type} (m : List (Str × α)) (p q : Str) (h : ¬p = q) :
    findKey (delKey m p) q = findKey m q := by
  induction m with
  | nil => rfl
  | cons e rest ih =>
    by_cases he : e.1 = p
    · have hq : ¬e.1 = q := by rw [he]; exact h
      simpa [delKey, findKey, he, hq, h] using ih
    · by_cases hq : e.1 = q
      · have h2 : ¬q = p := fun hh => h hh.symm
        simp [delKey, findKey, List.filter_cons, he, hq, h2]
      · simpa [delKey, findKey, he, hq] using ih

theorem fsGet_fsSet (fs : FS) (p q : Str) (c : Str) :
    fsGet (fsSet fs p c) q = if p = q then some c else fsGet fs q := by
  by_cases h : p = q
  · subst h; simp [fsGet, fsSet, findKey_setKey_self]
  · simp only [h, if_neg, fsGet, fsSet, setKey, findKey, not_false_iff]
    exact findKey_delKey_ne fs p q h

theorem fsGet_fsDel (fs : FS) (p q : Str) :
    fsGet (fsDel fs p) q = if p = q then none else fsGet fs q := by
  by_cases h : p = q
  · subst h; simp [fsGet, fsDel, findKey_delKey_self]
  · simp only [h, if_neg, fsGet, fsDel]
    exact findKey_delKey_ne fs p q h

/-! ### `FileManager` operations (`src/core/fileManager.ts`) -/

/-- The `FileOperation` result record; `data` holds the (serialised)
document on success. -/
structure FileOperation where
  success : Bool
  error : Option Str := none
  data : Option Str := none
deriving DecidableEq, Repr

/-- Backup destination `path.join(historyDir, basename(filePath) + '.' + timestamp)`. -/
def backupPath (historyDir filePath ts : Str) : Str :=
  historyDir ++ '/' :: (basename filePath ++ '.' :: ts)

/-- `FileManager.createBackup`: if the target exists, copy its bytes to the
backup path.  The whole body sits in a `try`/`catch` that only logs, so a
copy failure (modelled by `copyFails`, leaving no bytes) never propagates. -/
def createBackup (copyFails : Bool) (fs : FS) (historyDir filePath ts : Str) : FS :=
  match fsGet fs filePath with
  | none => fs
  | some old =>
      if copyFails then fs else fsSet fs (backupPath historyDir filePath ts) old

/-- Which `fs.*Sync` calls inside `writeFile` throw; `tempPartial` is the
content the interrupted temp-file write leaves behind, if any. -/
structure WriteFaults where
  backupFails : Bool := false
  tempWriteFails : Bool := false
  tempPartial : Option Str := none
  renameFails : Bool := false
  cleanupFails : Bool := false
deriving DecidableEq, Repr

/-- The `catch` block of `writeFile`: `existsSync(tempPath)` then a
best-effort `unlinkSync` whose own failure is only logged. -/
def cleanupTemp (cleanupFails : Bool) (fs : FS) (tempPath : Str) : FS :=
  if (fsGet fs tempPath).isSome then
    (if cleanupFails then fs else fsDel fs tempPath)
  else fs

def failWriteMsg : Str := ('F' :: "ailed to write file".toList)

/-- `FileManager.writeFile`: backup (errors swallowed), serialise, write the
bytes to `filePath + ".tmp"`, then atomically rename over `filePath`; on any
throw, best-effort temp cleanup and a failure result.  `content` stands for
`JSON.stringify(data, null, 2)`. -/
def writeFile (flt : WriteFaults) (fs : FS) (dataDir historyDir filename content ts : Str) :
    FS × FileOperation :=
  let filePath := getFilePath dataDir filename
  let tempPath := filePath ++ ('.' :: ['t', 'm', 'p'])
  let fs1 := createBackup flt.backupFails fs historyDir filePath ts
  if flt.tempWriteFails then
    let fs2 := match flt.tempPartial with
      | some part => fsSet fs1 tempPath part
      | none => fs1
    (cleanupTemp flt.cleanupFails fs2 tempPath,
     { success := false, error := some failWriteMsg })
  else
    let fs2 := fsSet fs1 tempPath content
    if flt.renameFails then
      (cleanupTemp flt.cleanupFails fs2 tempPath,
       { success := false, error := some failWriteMsg })
    else
      (fsSet (fsDel fs2 tempPath) filePath content,
       { success := true, data := some content })

/-- `FileManager.readFile`; `parsable` abstracts whether `JSON.parse`
succeeds on the stored bytes (its failure is caught and wrapped). -/
def readFile (parsable : Str → Bool) (fs : FS) (dataDir filename : Str) : FileOperation :=
  match fsGet fs (getFilePath dataDir filename) with
  | none => { success := false, error := some ('F' :: "ile not found".toList) }
  | some content =>
      if parsable content then { success := true, data := some content }
      else { success := false, error := some ('F' :: "ailed to read file".toList) }

/-- Which `fs.*Sync` calls inside `deleteFile` throw. -/
structure DeleteFaults where
  backupFails : Bool := false
  unlinkFails : Bool := false
deriving DecidableEq, Repr

/-- `FileManager.deleteFile`: not-found check, backup (errors swallowed),
then `unlinkSync`. -/
def deleteFile (flt : DeleteFaults) (fs : FS) (dataDir historyDir filename ts : Str) :
    FS × FileOperation :=
  let filePath := getFilePath dataDir filename
  match fsGet fs filePath with
  | none => (fs, { success := false, error := some ('F' :: "ile not found".toList) })
  | some _ =>
      let fs1 := createBackup flt.backupFails fs historyDir filePath ts
      if flt.unlinkFails then
        (fs1, { success := false, error := some ('F' :: "ailed to delete file".toList) })
      else (fsDel fs1 filePath, { success := true })

/-- `file.replace(pat, '')` with a string pattern: remove the FIRST
occurrence of `pat`, if any. -/
def removeFirst (pat : Str) : Str → Str
  | [] => []
  | c :: rest =>
      if pat.isPrefixOf (c :: rest) then (c :: rest).drop pat.length
      else c :: removeFirst pat rest

/-- `FileManager.listFiles` over a directory enumeration `dir` (the
filenames present in the data directory, in enumeration order): keep names
ending in `.json`, then map `file.replace('.json', '')` — which removes the
first occurrence of the substring `.json`, not necessarily the extension. -/
def listFiles (dir : List Str) : List Str :=
  (dir.filter (fun f => jsonExt.isSuffixOf f)).map (removeFirst jsonExt)

/-- `FileManager.fileExists`. -/
def fileExists (fs : FS) (dataDir filename : Str) : Bool :=
  (fsGet fs (getFilePath dataDir filename)).isSome

theorem self_ne_append_cons {α : Type} (l : List α) (a : α) (t : List α) :
    l ≠ l ++ a :: t := by
  intro h
  have hlen := congrArg List.length h
  simp at hlen

theorem all_safe_no_slash (l : Str) (h : l.all safeChar = true) :
    l.all (fun c => !(c = '/' : Bool)) = true := by
  simp only [List.all_eq_true] at h ⊢
  intro c hc
  have hs := h c hc
  by_cases hcs : c = '/'
  · subst hcs; exact absurd hs (by decide)
  · simp [hcs]

/-- C1: every Document Store operation (read, write, delete, exists) resolves
a request name through `getFilePath`, which yields
`dataDir/<base>.json` with `<base>` obtained by stripping directory
components, replacing unsafe characters and removing one trailing
case-insensitive `.json`; the final path component consists only of
characters from `[A-Za-z0-9._-]` (hence contains no separator), is neither
`.` nor `..`, re-resolving an extension-bearing name strips it again before
the single extension is re-appended, and `"../../etc/passwd"` resolves to
`dataDir/passwd.json` inside the data directory. -/
theorem C1_name_sanitization (dataDir filename : Str) :
    getFilePath dataDir filename =
      dataDir ++ '/' :: (stripJsonExt (sanitizeFilename filename) ++ jsonExt)
    ∧ (stripJsonExt (sanitizeFilename filename) ++ jsonExt).all safeChar = true
    ∧ (stripJsonExt (sanitizeFilename filename) ++ jsonExt).all
        (fun c => !(c = '/' : Bool)) = true
    ∧ stripJsonExt (sanitizeFilename filename) ++ jsonExt ≠ ['.']
    ∧ stripJsonExt (sanitizeFilename filename) ++ jsonExt ≠ ['.', '.']
    ∧ (∀ s : Str, stripJsonExt (s ++ jsonExt) = s)
    ∧ getFilePath dataDir ("../../etc/passwd".toList) =
        dataDir ++ ('/' :: "passwd.json".toList) := by
  have hall : (stripJsonExt (sanitizeFilename filename) ++ jsonExt).all safeChar = true := by
    rw [List.all_append]
    have h1 := stripJsonExt_safe _ (sanitizeFilename_safe filename)
    have h2 : jsonExt.all safeChar = true := by decide
    rw [h1, h2]; rfl
  refine ⟨rfl, hall, all_safe_no_slash _ hall, ?_, ?_, stripJsonExt_append_ext, ?_⟩
  · intro h
    have hlen := congrArg List.length h
    simp [jsonExt] at hlen
  · intro h
    have hlen := congrArg List.length h
    simp [jsonExt] at hlen
  · unfold getFilePath
    exact congrArg (dataDir ++ ·) (by decide)

/-- Witness for C1 at a concrete data directory and request name. -/
theorem C1_name_sanitization_witness :
    getFilePath ("data".toList) ("../../etc/passwd".toList) =
      "data".toList ++ ('/' :: "passwd.json".toList) :=
  (C1_name_sanitization ("data".toList) ("../../etc/passwd".toList)).2.2.2.2.2.2

/-! ### Session Authority (`src/core/auth.ts`, class `AuthManager`) -/

/-- One entry of the in-memory session map. -/
structure AuthSession where
  username : Str
  authenticated : Bool
  timestamp : Int
deriving DecidableEq, Repr

abbrev Sessions := List (Str × AuthSession)

/-- `24 * 60 * 60 * 1000` milliseconds. -/
def maxAgeMs : Int := 24 * 60 * 60 * 1000

/-- `AuthManager.createSession`: store `{username, authenticated: true,
timestamp: now}` under a freshly generated id (the generator is modelled by
passing the id) and return the id. -/
def createSession (sessions : Sessions) (username sessionId : Str) (now : Int) :
    Str × Sessions :=
  (sessionId, setKey sessions sessionId ⟨username, true, now⟩)

/-- `AuthManager.validateSession`: absent token is false; an entry older
than 24 hours is deleted and false; otherwise the stored `authenticated`
flag.  Returns the updated map alongside the verdict. -/
def validateSession (sessions : Sessions) (sessionId : Str) (now : Int) :
    Bool × Sessions :=
  match findKey sessions sessionId with
  | none => (false, sessions)
  | some session =>
      if now - session.timestamp > maxAgeMs then (false, delKey sessions sessionId)
      else (session.authenticated, sessions)

/-- `AuthManager.invalidateSession`: unconditional removal. -/
def invalidateSession (sessions : Sessions) (sessionId : Str) : Sessions :=
  delKey sessions sessionId

theorem findKey_mem {α : Type} (m : List (Str × α)) (t : Str) (v : α)
    (h : findKey m t = some v) : (t, v) ∈ m := by
  induction m with
  | nil => simp [findKey] at h
  | cons e rest ih =>
    by_cases he : e.1 = t
    · rw [findKey, if_pos he] at h
      have hv : e.2 = v := Option.some.inj h
      have : e = (t, v) := by
        cases e; simp_all
      simp [this]
    · rw [findKey, if_neg he] at h
      exact List.mem_cons_of_mem _ (ih h)

theorem mem_delKey_sub {α : Type} (m : List (Str × α)) (t : Str) (p : Str × α)
    (h : p ∈ delKey m t) : p ∈ m :=
  List.mem_of_mem_filter h

/-- C6: `validateSession` returns false for absent tokens; past the 24-hour
TTL it evicts the entry and returns false, after which every later
validation of the token is false; within the TTL it returns true (all
stored sessions carry `authenticated = true`); a token just minted by
`createSession` validates true at the creation instant; after
`invalidateSession` the token validates false, and invalidation is
unconditional and idempotent; `createSession` preserves the all-sessions-
authenticated invariant. -/
theorem C6_session_lifecycle (sessions : Sessions) (tok u : Str) (now now2 : Int) :
    (findKey sessions tok = none → validateSession sessions tok now = (false, sessions))
    ∧ (∀ s : AuthSession, findKey sessions tok = some s → now - s.timestamp > maxAgeMs →
        validateSession sessions tok now = (false, delKey sessions tok)
        ∧ (validateSession (delKey sessions tok) tok now2).1 = false)
    ∧ (∀ s : AuthSession, findKey sessions tok = some s →
        ¬(now - s.timestamp > maxAgeMs) →
        (∀ p ∈ sessions, p.2.authenticated = true) →
        validateSession sessions tok now = (true, sessions))
    ∧ (validateSession (createSession sessions u tok now).2 tok now).1 = true
    ∧ (validateSession (invalidateSession sessions tok) tok now2).1 = false
    ∧ invalidateSession (invalidateSession sessions tok) tok = invalidateSession sessions tok
    ∧ ((∀ p ∈ sessions, p.2.authenticated = true) →
        ∀ p ∈ (createSession sessions u tok now).2, p.2.authenticated = true) := by
  refine ⟨?_, ?_, ?_, ?_, ?_, ?_, ?_⟩
  · intro h; simp [validateSession, h]
  · intro s hs hexp
    constructor
    · simp [validateSession, hs, hexp]
    · simp [validateSession, findKey_delKey_self]
  · intro s hs hfresh hinv
    have hmem := findKey_mem sessions tok s hs
    have hauth : s.authenticated = true := hinv (tok, s) hmem
    simp [validateSession, hs, hfresh, hauth]
  · simp [validateSession, createSession, findKey_setKey_self, maxAgeMs]
  · simp [validateSession, invalidateSession, findKey_delKey_self]
  · exact delKey_idem sessions tok
  · intro hinv p hp
    rcases List.mem_cons.1 hp with h | h
    · subst h; rfl
    · exact hinv p (mem_delKey_sub sessions tok p h)

/-- Witness for C6: a freshly created session validates true, an expired
entry is evicted, and invalidation yields false, at concrete inputs. -/
theorem C6_session_lifecycle_witness :
    validateSession [("t".toList, ⟨"admin".toList, true, 0⟩)] ("t".toList) 1000 =
      (true, [("t".toList, ⟨"admin".toList, true, 0⟩)])
    ∧ validateSession [("t".toList, ⟨"admin".toList, true, 0⟩)] ("t".toList) 86400001 =
        (false, [])
    ∧ (validateSession (invalidateSession [("t".toList, ⟨"admin".toList, true, 0⟩)]
        ("t".toList)) ("t".toList) 1000).1 = false := by
  refine ⟨?_, ?_, ?_⟩
  · exact (C6_session_lifecycle [("t".toList, ⟨"admin".toList, true, 0⟩)]
      ("t".toList) ("admin".toList) 1000 1000).2.2.1 ⟨"admin".toList, true, 0⟩
      (by decide) (by decide) (by decide)
  · have h := ((C6_session_lifecycle [("t".toList, ⟨"admin".toList, true, 0⟩)]
      ("t".toList) ("admin".toList) 86400001 1000).2.1 ⟨"admin".toList, true, 0⟩
      (by decide) (by decide)).1
    rw [h]; rfl
  · exact (C6_session_lifecycle [("t".toList, ⟨"admin".toList, true, 0⟩)]
      ("t".toList) ("admin".toList) 1000 1000).2.2.2.2.1

theorem createBackup_get_filePath (b : Bool) (fs : FS) (hD fp ts : Str) :
    fsGet (createBackup b fs hD fp ts) fp = fsGet fs fp := by
  unfold createBackup
  cases hfp : fsGet fs fp with
  | none => exact hfp
  | some old =>
    by_cases hb : b
    · simp [hb, hfp]
    · simp only [hb, if_false, Bool.false_eq_true, fsGet_fsSet]
      by_cases heq : backupPath hD fp ts = fp <;> simp [heq, hfp]

theorem createBackup_get_other (b : Bool) (fs : FS) (hD fp ts q : Str)
    (h : ¬backupPath hD fp ts = q) :
    fsGet (createBackup b fs hD fp ts) q = fsGet fs q := by
  unfold createBackup
  cases hfp : fsGet fs fp with
  | none => rfl
  | some old =>
    by_cases hb : b
    · simp [hb]
    · simp [hb, fsGet_fsSet, h]

theorem cleanupTemp_get_other (cf : Bool) (fs : FS) (tp q : Str) (h : ¬tp = q) :
    fsGet (cleanupTemp cf fs tp) q = fsGet fs q := by
  unfold cleanupTemp
  split
  · split
    · rfl
    · simp [fsGet_fsDel, h]
  · rfl

theorem cleanupTemp_get_self (fs : FS) (tp : Str) :
    fsGet (cleanupTemp false fs tp) tp = none := by
  unfold cleanupTemp
  split
  · simp [fsGet_fsDel]
  · next hn => exact Option.not_isSome_iff_eq_none.mp hn

/-- C2: for every fault pattern, the content visible at the final path after
`writeFile` is either exactly the previous one or exactly the new serialised
content (never anything else, in particular never a partial temp write); and
whenever the temp-file write or the rename throws, the operation reports
failure, the previously visible document (present or absent) is untouched,
and — when the best-effort unlink itself does not fail — the leftover temp
file is removed. -/
theorem C2_atomic_write (flt : WriteFaults) (fs : FS)
    (dataDir historyDir filename content ts : Str) :
    (fsGet (writeFile flt fs dataDir historyDir filename content ts).1
        (getFilePath dataDir filename) = fsGet fs (getFilePath dataDir filename)
     ∨ fsGet (writeFile flt fs dataDir historyDir filename content ts).1
        (getFilePath dataDir filename) = some content)
    ∧ (flt.tempWriteFails = true ∨ flt.renameFails = true →
        (writeFile flt fs dataDir historyDir filename content ts).2.success = false
        ∧ fsGet (writeFile flt fs dataDir historyDir filename content ts).1
            (getFilePath dataDir filename) = fsGet fs (getFilePath dataDir filename)
        ∧ (flt.cleanupFails = false →
            fsGet (writeFile flt fs dataDir historyDir filename content ts).1
              (getFilePath dataDir filename ++ ('.' :: ['t', 'm', 'p'])) = none)) := by
  have hne : getFilePath dataDir filename ≠
      getFilePath dataDir filename ++ ('.' :: ['t', 'm', 'p']) :=
    self_ne_append_cons _ '.' ['t', 'm', 'p']
  have hnetp : ¬getFilePath dataDir filename ++ ('.' :: ['t', 'm', 'p']) =
      getFilePath dataDir filename := fun h => hne h.symm
  have hb := createBackup_get_filePath flt.backupFails fs historyDir
    (getFilePath dataDir filename) ts
  by_cases h1 : flt.tempWriteFails
  · cases hpart : flt.tempPartial with
    | none =>
      simp only [writeFile, h1, hpart, if_true]
      refine ⟨Or.inl ?_, fun _ => ⟨by trivial, ?_, fun hcf => ?_⟩⟩
      · rw [cleanupTemp_get_other _ _ _ _ hnetp, hb]
      · rw [cleanupTemp_get_other _ _ _ _ hnetp, hb]
      · rw [hcf]; exact cleanupTemp_get_self _ _
    | some part =>
      simp only [writeFile, h1, hpart, if_true]
      have hget : fsGet (fsSet (createBackup flt.backupFails fs historyDir
          (getFilePath dataDir filename) ts)
          (getFilePath dataDir filename ++ ('.' :: ['t', 'm', 'p'])) part)
          (getFilePath dataDir filename) = fsGet fs (getFilePath dataDir filename) := by
        rw [fsGet_fsSet, if_neg hnetp, hb]
      refine ⟨Or.inl ?_, fun _ => ⟨by trivial, ?_, fun hcf => ?_⟩⟩
      · rw [cleanupTemp_get_other _ _ _ _ hnetp, hget]
      · rw [cleanupTemp_get_other _ _ _ _ hnetp, hget]
      · rw [hcf]; exact cleanupTemp_get_self _ _
  · by_cases h2 : flt.renameFails
    · simp only [writeFile, h1, h2, if_true, if_false, Bool.false_eq_true]
      have hget : fsGet (fsSet (createBackup flt.backupFails fs historyDir
          (getFilePath dataDir filename) ts)
          (getFilePath dataDir filename ++ ('.' :: ['t', 'm', 'p'])) content)
          (getFilePath dataDir filename) = fsGet fs (getFilePath dataDir filename) := by
        rw [fsGet_fsSet, if_neg hnetp, hb]
      refine ⟨Or.inl ?_, fun _ => ⟨by trivial, ?_, fun hcf => ?_⟩⟩
      · rw [cleanupTemp_get_other _ _ _ _ hnetp, hget]
      · rw [cleanupTemp_get_other _ _ _ _ hnetp, hget]
      · rw [hcf]; exact cleanupTemp_get_self _ _
    · simp only [writeFile, h1, h2, if_false, Bool.false_eq_true]
      refine ⟨Or.inr ?_, fun hor => ?_⟩
      · rw [fsGet_fsSet, if_pos rfl]
      · exact hor.elim False.elim False.elim

/-- Witness for C2: a rename failure on a store holding one document leaves
that document intact, reports failure, and removes the temp file. -/
theorem C2_atomic_write_witness :
    (writeFile { renameFails := true } [(getFilePath ("data".toList) ("a".toList),
        "old".toList)] ("data".toList) ("hist".toList) ("a".toList)
        ("new".toList) ("ts".toList)).2.success = false
    ∧ fsGet (writeFile { renameFails := true }
        [(getFilePath ("data".toList) ("a".toList), "old".toList)]
        ("data".toList) ("hist".toList) ("a".toList) ("new".toList)
        ("ts".toList)).1 (getFilePath ("data".toList) ("a".toList)) =
        some ("old".toList) := by
  have h := (C2_atomic_write { renameFails := true }
    [(getFilePath ("data".toList) ("a".toList), "old".toList)]
    ("data".toList) ("hist".toList) ("a".toList) ("new".toList) ("ts".toList)).2
    (Or.inr rfl)
  refine ⟨h.1, ?_⟩
  rw [h.2.1]
  decide

theorem takeWhile_all_stop (p : Char → Bool) (l1 l2 : Str) (y : Char)
    (h1 : ∀ x ∈ l1, p x = true) (hy : p y = false) :
    (l1 ++ y :: l2).takeWhile p = l1 := by
  induction l1 with
  | nil => simp [List.takeWhile_cons, hy]
  | cons a rest ih =>
    have ha := h1 a (List.mem_cons_self a rest)
    simp [List.takeWhile_cons, ha, ih (fun x hx => h1 x (List.mem_cons_of_mem a hx))]

theorem basename_concat (d comp : Str) (hne : comp ≠ [])
    (hall : comp.all (fun c => !(c = '/' : Bool)) = true) :
    basename (d ++ '/' :: comp) = comp := by
  have hpt : ∀ x ∈ comp.reverse, (fun c => !(c = '/' : Bool)) x = true := by
    intro x hx
    exact (List.all_eq_true.1 hall) x (List.mem_reverse.1 hx)
  obtain ⟨c0, rrest, hc⟩ : ∃ c0 rrest, comp.reverse = c0 :: rrest := by
    cases hr : comp.reverse with
    | nil => exact absurd (by simpa using congrArg List.reverse hr) hne
    | cons a b => exact ⟨a, b, rfl⟩
  have hc0 : (c0 = '/' : Bool) = false := by
    have hm : c0 ∈ comp.reverse := by rw [hc]; exact List.mem_cons_self _ _
    have := hpt c0 hm
    simpa using this
  unfold basename
  have hrev : (d ++ '/' :: comp).reverse = comp.reverse ++ '/' :: d.reverse := by
    simp
  rw [hrev, hc, List.cons_append]
  rw [List.dropWhile_cons_of_neg (by simp [hc0])]
  rw [← List.cons_append, ← hc]
  rw [takeWhile_all_stop _ _ _ _ hpt (by decide)]
  exact List.reverse_reverse comp

theorem basename_getFilePath (dataDir filename : Str) :
    basename (getFilePath dataDir filename) =
      stripJsonExt (sanitizeFilename filename) ++ jsonExt := by
  apply basename_concat
  · intro h
    have := congrArg List.length h
    simp [jsonExt] at this
  · exact all_safe_no_slash _ (C1_name_sanitization dataDir filename).2.1

/-- C3 counterexample: with a failing (and silently swallowed) backup copy,
`writeFile` over an existing document still succeeds, and no backup entry at
all appears — the final state holds only the overwritten document. -/
theorem C3_backup_counterexample :
    (writeFile { backupFails := true }
      [(getFilePath ("d".toList) ("a".toList), "o".toList)]
      ("d".toList) ("h".toList) ("a".toList) ("n".toList) ("t".toList)).2.success = true
    ∧ (writeFile { backupFails := true }
        [(getFilePath ("d".toList) ("a".toList), "o".toList)]
        ("d".toList) ("h".toList) ("a".toList) ("n".toList) ("t".toList)).1 =
        [(getFilePath ("d".toList) ("a".toList), "n".toList)]
    ∧ fsGet (writeFile { backupFails := true }
        [(getFilePath ("d".toList) ("a".toList), "o".toList)]
        ("d".toList) ("h".toList) ("a".toList) ("n".toList) ("t".toList)).1
        (backupPath ("h".toList) (getFilePath ("d".toList) ("a".toList))
          ("t".toList)) = none := by
  refine ⟨rfl, by decide, by decide⟩

/-- C3 (amended): provided the backup copy itself succeeds, a successful
write or delete of an existing document produces exactly one new backup
entry — at `historyDir/<sanitizedName>.<timestamp>`, holding the
pre-mutation bytes — and changes no path other than the document's final
path and its temp sibling.  The original claim fails because a failing
backup copy is swallowed and the mutation still succeeds (see the
counterexample). -/
theorem C3_backup_invariant (flt : WriteFaults) (dflt : DeleteFaults) (fs : FS)
    (dataDir historyDir filename content ts old : Str)
    (hwb : flt.backupFails = false) (hdb : dflt.backupFails = false)
    (hex : fsGet fs (getFilePath dataDir filename) = some old)
    (hb1 : backupPath historyDir (getFilePath dataDir filename) ts ≠
      getFilePath dataDir filename)
    (hb2 : backupPath historyDir (getFilePath dataDir filename) ts ≠
      getFilePath dataDir filename ++ ('.' :: ['t', 'm', 'p'])) :
    backupPath historyDir (getFilePath dataDir filename) ts =
      historyDir ++ '/' :: ((stripJsonExt (sanitizeFilename filename) ++ jsonExt)
        ++ '.' :: ts)
    ∧ ((writeFile flt fs dataDir historyDir filename content ts).2.success = true →
        fsGet (writeFile flt fs dataDir historyDir filename content ts).1
          (backupPath historyDir (getFilePath dataDir filename) ts) = some old
        ∧ ∀ q : Str, q ≠ backupPath historyDir (getFilePath dataDir filename) ts →
            q ≠ getFilePath dataDir filename →
            q ≠ getFilePath dataDir filename ++ ('.' :: ['t', 'm', 'p']) →
            fsGet (writeFile flt fs dataDir historyDir filename content ts).1 q =
              fsGet fs q)
    ∧ ((deleteFile dflt fs dataDir historyDir filename ts).2.success = true →
        fsGet (deleteFile dflt fs dataDir historyDir filename ts).1
          (backupPath historyDir (getFilePath dataDir filename) ts) = some old
        ∧ ∀ q : Str, q ≠ backupPath historyDir (getFilePath dataDir filename) ts →
            q ≠ getFilePath dataDir filename →
            fsGet (deleteFile dflt fs dataDir historyDir filename ts).1 q =
              fsGet fs q) := by
  have hfpb : ¬getFilePath dataDir filename =
      backupPath historyDir (getFilePath dataDir filename) ts := fun h => hb1 h.symm
  have htpb : ¬getFilePath dataDir filename ++ ('.' :: ['t', 'm', 'p']) =
      backupPath historyDir (getFilePath dataDir filename) ts := fun h => hb2 h.symm
  refine ⟨?_, ?_, ?_⟩
  · unfold backupPath
    rw [basename_getFilePath]
  · intro hsucc
    by_cases h1 : flt.tempWriteFails
    · exfalso
      cases hpart : flt.tempPartial with
      | none => simp [writeFile, h1, hpart] at hsucc
      | some part => simp [writeFile, h1, hpart] at hsucc
    · by_cases h2 : flt.renameFails
      · exfalso; simp [writeFile, h1, h2] at hsucc
      · simp only [writeFile, h1, h2, if_false, Bool.false_eq_true, createBackup,
          hex, hwb]
        constructor
        · rw [fsGet_fsSet, if_neg hfpb, fsGet_fsDel, if_neg htpb, fsGet_fsSet,
            if_neg htpb, fsGet_fsSet, if_pos rfl]
        · intro q hq1 hq2 hq3
          have hq2n : ¬getFilePath dataDir filename = q := fun h => hq2 h.symm
          have hq3n : ¬getFilePath dataDir filename ++ ('.' :: ['t', 'm', 'p']) = q :=
            fun h => hq3 h.symm
          have hq1n : ¬backupPath historyDir (getFilePath dataDir filename) ts = q :=
            fun h => hq1 h.symm
          rw [fsGet_fsSet, if_neg hq2n, fsGet_fsDel, if_neg hq3n, fsGet_fsSet,
            if_neg hq3n, fsGet_fsSet, if_neg hq1n]
  · intro hsucc
    by_cases h3 : dflt.unlinkFails
    · exfalso; simp [deleteFile, hex, h3] at hsucc
    · simp only [deleteFile, hex, createBackup, hdb, h3, if_false,
        Bool.false_eq_true]
      constructor
      · rw [fsGet_fsDel, if_neg hfpb, fsGet_fsSet, if_pos rfl]
      · intro q hq1 hq2
        have hq2n : ¬getFilePath dataDir filename = q := fun h => hq2 h.symm
        have hq1n : ¬backupPath historyDir (getFilePath dataDir filename) ts = q :=
          fun h => hq1 h.symm
        rw [fsGet_fsDel, if_neg hq2n, fsGet_fsSet, if_neg hq1n]

/-- Witness for C3 (amended) at concrete directories, document and faults. -/
theorem C3_backup_invariant_witness :
    fsGet (writeFile {} [(getFilePath ("d".toList) ("a".toList), "o".toList)]
      ("d".toList) ("h".toList) ("a".toList) ("n".toList) ("t".toList)).1
      (backupPath ("h".toList) (getFilePath ("d".toList) ("a".toList))
        ("t".toList)) = some ("o".toList) := by
  have h := (C3_backup_invariant {} {}
    [(getFilePath ("d".toList) ("a".toList), "o".toList)]
    ("d".toList) ("h".toList) ("a".toList) ("n".toList) ("t".toList) ("o".toList)
    rfl rfl (by decide) (by decide) (by decide)).2.1 (by decide)
  exact h.1

/-! ### Schema Registry & Validator (`src/core/schema.ts`) -/

/-- JSON values (the dynamic `any` payloads); integer numerics suffice for
the claims under verification. -/
inductive Json where
  | null
  | bool (b : Bool)
  | num (n : Int)
  | str (s : Str)
  | arr (items : List Json)
  | obj (fields : List (Str × Json))
deriving Repr

abbrev Registry := List (Str × Json)

/-- The loading loop of `SchemaValidator.loadSchemas`.  The whole loop runs
inside a single `try`: a `JSON.parse` throw (`parse` returning `none`) or a
duplicate-key `ajv.addSchema` throw escapes to the outer `catch` (which only
warns), aborting the loop with the entries registered so far. -/
def loadLoop (parse : Str → Option Json) :
    List (Str × Str) → Registry → Registry
  | [], acc => acc
  | (fname, cont) :: rest, acc =>
      match parse cont with
      | none => acc
      | some schema =>
          if (findKey acc (removeFirst jsonExt fname)).isSome then acc
          else loadLoop parse rest (acc ++ [(removeFirst jsonExt fname, schema)])

/-- `SchemaValidator.loadSchemas`: a missing schemas directory (`dir = none`,
the `existsSync` early return) yields an empty registry; otherwise the
directory's `.json` entries are loaded in enumeration order. -/
def loadSchemas (parse : Str → Option Json)
    (dir : Option (List (Str × Str))) : Registry :=
  match dir with
  | none => []
  | some files => loadLoop parse (files.filter (fun f => jsonExt.isSuffixOf f.1)) []

/-- `SchemaValidator.reloadSchemas`: clear both caches and re-run the scan. -/
def reloadSchemas (parse : Str → Option Json)
    (dir : Option (List (Str × Str))) : Registry :=
  loadSchemas parse dir

/-- The `{valid, errors?}` result record. -/
structure ValidationResult where
  valid : Bool
  errors : Option (List Str) := none
deriving Repr

/-- `SchemaValidator.validate`: look up the (first-occurrence-stripped) name;
absent means unconditionally valid; otherwise run the compiled validator,
abstracted as `check` returning `none` for valid or the formatted error
strings (`instancePath` + message) for invalid. -/
def validate (check : Json → Json → Option (List Str)) (registry : Registry)
    (filename : Str) (data : Json) : ValidationResult :=
  match findKey registry (removeFirst jsonExt filename) with
  | none => { valid := true }
  | some schema =>
      match check schema data with
      | none => { valid := true }
      | some errs => { valid := false, errors := some errs }

theorem findKey_eq_none_of_not_mem {α : Type} (m : List (Str × α)) (t : Str)
    (h : t ∉ m.map Prod.fst) : findKey m t = none := by
  induction m with
  | nil => rfl
  | cons e rest ih =>
    simp only [List.map_cons, List.mem_cons] at h
    push_neg at h
    rw [findKey, if_neg (fun he => h.1 he.symm)]
    exact ih h.2

theorem loadLoop_abort (parse : Str → Option Json) (bn bc : Str)
    (rest : List (Str × Str)) (hbad : parse bc = none) :
    ∀ (pre : List (Str × Str)) (acc : Registry),
      loadLoop parse (pre ++ (bn, bc) :: rest) acc = loadLoop parse pre acc := by
  intro pre
  induction pre with
  | nil => intro acc; simp [loadLoop, hbad]
  | cons f pre ih =>
    intro acc
    obtain ⟨fname, cont⟩ := f
    simp only [List.cons_append, loadLoop]
    cases parse cont with
    | none => rfl
    | some schema =>
      by_cases hdup : (findKey acc (removeFirst jsonExt fname)).isSome
      · simp [hdup]
      · simp [hdup, ih]

theorem loadLoop_all_good (parse : Str → Option Json) :
    ∀ (files : List (Str × Str)) (acc : Registry),
      (∀ f ∈ files, (parse f.2).isSome = true) →
      (acc.map Prod.fst ++ files.map (fun f => removeFirst jsonExt f.1)).Nodup →
      (loadLoop parse files acc).map Prod.fst =
        acc.map Prod.fst ++ files.map (fun f => removeFirst jsonExt f.1) := by
  intro files
  induction files with
  | nil => intro acc _ _; simp [loadLoop]
  | cons f rest ih =>
    intro acc hall hnd
    obtain ⟨fname, cont⟩ := f
    obtain ⟨schema, hs⟩ :=
      Option.isSome_iff_exists.1 (hall (fname, cont) (List.mem_cons_self _ _))
    have hnotmem : removeFirst jsonExt fname ∉ acc.map Prod.fst := by
      rcases List.nodup_append.1 hnd with ⟨-, -, hdisj⟩
      intro hmem
      exact hdisj hmem (by simp)
    have hkey := findKey_eq_none_of_not_mem _ _ hnotmem
    simp only [loadLoop, hs, hkey, Option.isSome_none, Bool.false_eq_true, if_false]
    have hrec := ih (acc ++ [(removeFirst jsonExt fname, schema)])
      (fun g hg => hall g (List.mem_cons_of_mem _ hg))
      (by simpa [List.append_assoc] using hnd)
    rw [hrec]
    simp

/-- A concrete parse oracle: only the content `"ok"` parses. -/
def parseEx : Str → Option Json :=
  fun s => if s = ('o' :: ['k']) then some (Json.obj []) else none

/-- C7 counterexample: in a directory whose first entry fails to parse and
whose second entry parses fine, the loader registers nothing at all — the
parseable `b.json` is not registered, contradicting "only the offending
entry is skipped". -/
theorem C7_skip_counterexample :
    loadSchemas parseEx (some [("a.json".toList, "bad".toList),
      ("b.json".toList, "ok".toList)]) = []
    ∧ parseEx ("ok".toList) = some (Json.obj [])
    ∧ parseEx ("bad".toList) = none
    ∧ jsonExt.isSuffixOf ("b.json".toList) = true := by
  exact ⟨rfl, rfl, rfl, by decide⟩

/-- C7 (amended): a missing schemas directory is tolerated silently with an
empty registry, on construction and reload alike; but a schema file that
fails to parse aborts the whole loading loop — files processed before it
stay registered while the offending file and every later file are skipped;
when every file parses and the derived names are distinct, every file is
registered. -/
theorem C7_schema_load (parse : Str → Option Json)
    (files pre rest : List (Str × Str)) (bn bc : Str) (acc : Registry)
    (hbad : parse bc = none) :
    loadSchemas parse none = []
    ∧ reloadSchemas parse none = []
    ∧ loadLoop parse (pre ++ (bn, bc) :: rest) acc = loadLoop parse pre acc
    ∧ ((∀ f ∈ files, (parse f.2).isSome = true) →
        (files.map (fun f => removeFirst jsonExt f.1)).Nodup →
        (loadLoop parse files []).map Prod.fst =
          files.map (fun f => removeFirst jsonExt f.1)) :=
  ⟨rfl, rfl, loadLoop_abort parse bn bc rest hbad pre acc,
   fun hall hnd => by
     simpa using loadLoop_all_good parse files [] hall (by simpa using hnd)⟩

/-- Witness for C7 (amended): with one good file before a bad one, loading
stops at the bad file and keeps the good prefix. -/
theorem C7_schema_load_witness :
    loadLoop parseEx [("b.json".toList, "ok".toList),
      ("a.json".toList, "bad".toList)] [] =
    loadLoop parseEx [("b.json".toList, "ok".toList)] [] :=
  (C7_schema_load parseEx [] [("b.json".toList, "ok".toList)] []
    ("a.json".toList) ("bad".toList) [] rfl).2.2.1

/-- C8: when no schema is registered under a request's derived name,
`validate` returns valid unconditionally, with no errors — validation is
opt-in per name, not default-deny. -/
theorem C8_no_schema_valid (check : Json → Json → Option (List Str))
    (registry : Registry) (filename : Str) (data : Json)
    (h : findKey registry (removeFirst jsonExt filename) = none) :
    validate check registry filename data = { valid := true, errors := none } := by
  unfold validate
  rw [h]

/-- A concrete validator that rejects every document. -/
def checkReject : Json → Json → Option (List Str) :=
  fun _ _ => some [('b' :: "ad".toList)]

/-- Witness for C8: even under an always-rejecting compiled validator, a
name with no registered schema validates as valid. -/
theorem C8_no_schema_valid_witness :
    validate checkReject [("other".toList, Json.null)] ("mine.json".toList)
      (Json.obj []) = { valid := true, errors := none } :=
  C8_no_schema_valid checkReject [("other".toList, Json.null)]
    ("mine.json".toList) (Json.obj []) rfl

/-! ### Listing and the `replace('.json','')` pitfall (claims about `listFiles`) -/

/-- Whether `pat` occurs as a contiguous substring. -/
def hasSubstr (pat : Str) : Str → Bool
  | [] => pat.isPrefixOf []
  | c :: rest => pat.isPrefixOf (c :: rest) || hasSubstr pat rest

theorem isPrefixOf_append_self (l r : Str) : l.isPrefixOf (l ++ r) = true := by
  induction l with
  | nil => cases r <;> rfl
  | cons a t ih => simp [List.isPrefixOf, ih]

theorem isSuffixOf_append_self (b : Str) :
    jsonExt.isSuffixOf (b ++ jsonExt) = true := by
  show jsonExt.reverse.isPrefixOf (b ++ jsonExt).reverse = true
  rw [List.reverse_append]
  exact isPrefixOf_append_self _ _

theorem eq_append_of_isPrefixOf (l : Str) :
    ∀ s : Str, l.isPrefixOf s = true → ∃ t, s = l ++ t := by
  induction l with
  | nil => exact fun s _ => ⟨s, rfl⟩
  | cons a t ih =>
    intro s h
    cases s with
    | nil => simp [List.isPrefixOf] at h
    | cons b u =>
      simp only [List.isPrefixOf, Bool.and_eq_true, beq_iff_eq] at h
      obtain ⟨rfl, h2⟩ := h
      obtain ⟨t2, rfl⟩ := ih u h2
      exact ⟨t2, rfl⟩

theorem dropLast_cons_ne (c : Char) (l : Str) (h : l ≠ []) :
    (c :: l).dropLast = c :: l.dropLast := by
  cases l with
  | nil => exact absurd rfl h
  | cons x xs => rfl

theorem dropLast_append_ne (l r : Str) (h : r ≠ []) :
    (l ++ r).dropLast = l ++ r.dropLast := by
  induction l with
  | nil => rfl
  | cons a t ih =>
    have hne : t ++ r ≠ [] := by
      intro hh
      exact h (List.append_eq_nil.1 hh).2
    rw [List.cons_append, dropLast_cons_ne a (t ++ r) hne, ih, List.cons_append]

theorem hasSubstr_of_prefix (s : Str) (h : jsonExt.isPrefixOf s = true) :
    hasSubstr jsonExt s = true := by
  obtain ⟨t, rfl⟩ := eq_append_of_isPrefixOf jsonExt s h
  rw [show jsonExt ++ t = '.' :: ("json".toList ++ t) from rfl]
  rw [hasSubstr]
  rw [show ('.' :: ("json".toList ++ t)) = jsonExt ++ t from rfl]
  rw [isPrefixOf_append_self]
  rfl

theorem removeFirst_append_ext (b : Str)
    (hnot : hasSubstr jsonExt ((b ++ jsonExt).dropLast) = false) :
    removeFirst jsonExt (b ++ jsonExt) = b := by
  induction b with
  | nil =>
    show removeFirst jsonExt jsonExt = []
    rw [show jsonExt = '.' :: "json".toList from rfl, removeFirst]
    rw [if_pos (by decide)]
    rfl
  | cons c b ih =>
    have hlne : b ++ jsonExt ≠ [] := by
      intro hh
      have h5 := (List.append_eq_nil.1 hh).2
      simp [jsonExt] at h5
    have hdl : ((c :: b) ++ jsonExt).dropLast = c :: (b ++ jsonExt).dropLast := by
      rw [List.cons_append, dropLast_cons_ne c (b ++ jsonExt) hlne]
    have hpre : jsonExt.isPrefixOf (c :: (b ++ jsonExt)) = false := by
      by_contra hcon
      have hpt : jsonExt.isPrefixOf (c :: (b ++ jsonExt)) = true :=
        Bool.of_not_eq_false hcon
      obtain ⟨t, ht⟩ := eq_append_of_isPrefixOf jsonExt _ hpt
      have htne : t ≠ [] := by
        intro hh
        subst hh
        have hlen := congrArg List.length ht
        simp [jsonExt] at hlen
      have hsub : hasSubstr jsonExt (((c :: b) ++ jsonExt).dropLast) = true := by
        rw [List.cons_append, ht, dropLast_append_ne jsonExt t htne]
        exact hasSubstr_of_prefix _ (isPrefixOf_append_self _ _)
      rw [hsub] at hnot
      simp at hnot
    rw [hdl] at hnot
    rw [hasSubstr] at hnot
    have hrest : hasSubstr jsonExt ((b ++ jsonExt).dropLast) = false :=
      (Bool.or_eq_false_iff.1 hnot).2
    rw [List.cons_append, removeFirst, if_neg (by rw [hpre]; exact Bool.false_ne_true)]
    rw [ih hrest]

/-- C9 counterexample: the store itself creates the file `a.jsonX.json` for
the logical name `a.jsonX`, yet `listFiles` — which removes the FIRST
occurrence of `.json`, not the extension — lists it as `aX.json`, not as
the extension-stripped logical name `a.jsonX`. -/
theorem C9_list_counterexample :
    getFilePath ("d".toList) ("a.jsonX".toList) =
      "d".toList ++ ('/' :: "a.jsonX.json".toList)
    ∧ listFiles ["a.jsonX.json".toList] = ["aX.json".toList]
    ∧ ("aX.json".toList : Str) ≠ "a.jsonX".toList := by
  refine ⟨?_, by decide, by decide⟩
  unfold getFilePath
  exact congrArg ("d".toList ++ ·) (by decide)

/-- C9 (amended): for a data directory whose files are `base ++ ".json"`
with `.json` occurring nowhere except as the final extension, `list()`
returns exactly the bases — the logical names with the extension stripped —
each exactly once, in directory order; in general, however, the
first-occurrence `replace('.json','')` does not strip the extension (see
the counterexample). -/
theorem C9_list_names (bases : List Str) (hnd : bases.Nodup)
    (hno : ∀ b ∈ bases, hasSubstr jsonExt ((b ++ jsonExt).dropLast) = false) :
    listFiles (bases.map (fun b => b ++ jsonExt)) = bases
    ∧ (listFiles (bases.map (fun b => b ++ jsonExt))).Nodup
    ∧ (listFiles (bases.map (fun b => b ++ jsonExt))).length = bases.length := by
  have hmain : listFiles (bases.map (fun b => b ++ jsonExt)) = bases := by
    unfold listFiles
    have hfil : (bases.map (fun b => b ++ jsonExt)).filter
        (fun f => jsonExt.isSuffixOf f) = bases.map (fun b => b ++ jsonExt) := by
      rw [List.filter_eq_self]
      intro f hf
      obtain ⟨b, _, rfl⟩ := List.mem_map.1 hf
      exact isSuffixOf_append_self b
    rw [hfil, List.map_map]
    have hpt : ∀ b ∈ bases,
        (removeFirst jsonExt ∘ fun b => b ++ jsonExt) b = id b := by
      intro b hb
      exact removeFirst_append_ext b (hno b hb)
    rw [List.map_congr_left hpt, List.map_id]
  exact ⟨hmain, by rw [hmain]; exact hnd, by rw [hmain]⟩

/-- Witness for C9 (amended) on a concrete two-file directory. -/
theorem C9_list_names_witness :
    listFiles [("a".toList ++ jsonExt), ("b".toList ++ jsonExt)] =
      ["a".toList, "b".toList] := by
  have h := (C9_list_names ["a".toList, "b".toList] (by decide)
    (by decide)).1
  simpa using h

/-! ### Auth gate and route handlers (`src/core/auth.ts`, `src/api/files.ts`,
`src/server.ts`) -/

/-- Per-name permission entries of the config map. -/
inductive Perm where
  | pub
  | admin
deriving DecidableEq, Repr

/-- `AuthManager.requiresAdmin`: the permission map is consulted with the
LITERAL request string — no sanitisation — and only the value `'admin'`
gates. -/
def requiresAdmin (perms : List (Str × Perm)) (filename : Str) : Bool :=
  match findKey perms filename with
  | some Perm.admin => true
  | _ => false

/-- Route handler outcomes, tagged below with their HTTP status codes. -/
inductive HandlerResult where
  | serve (content : Str)
  | success (content : Str)
  | deleted
  | badRequest (msg : Str)
  | invalid (details : List Str)
  | unauthorized
  | notFound (msg : Str)
  | serverError (msg : Str)
deriving DecidableEq, Repr

def HandlerResult.status : HandlerResult → Nat
  | .serve _ => 200
  | .success _ => 200
  | .deleted => 200
  | .badRequest _ => 400
  | .invalid _ => 400
  | .unauthorized => 401
  | .notFound _ => 404
  | .serverError _ => 500

/-- The `GET /data/:filename` route of `LiteJSONServer.setupRoutes`: an
admin-flagged name is answered 401 outright; the handler never reads any
session, so `hasValidSession` — whether the request carries a currently
valid session — is unused, mirroring the code.  On success the read
document (always populated) is served; otherwise 404. -/
def dataGet (perms : List (Str × Perm)) (parsable : Str → Bool) (fs : FS)
    (dataDir filename : Str) (_hasValidSession : Bool) : HandlerResult :=
  if requiresAdmin perms filename then .unauthorized
  else
    let r := readFile parsable fs dataDir filename
    if r.success then .serve (r.data.getD []) else .notFound (r.error.getD [])

/-- The `GET /api/file/:filename` handler (running after `optionalAuth`,
which sets `req.isAuthenticated`). -/
def apiFileGet (perms : List (Str × Perm)) (parsable : Str → Bool) (fs : FS)
    (dataDir filename : Str) (isAuthenticated : Bool) : HandlerResult :=
  if requiresAdmin perms filename && !isAuthenticated then .unauthorized
  else
    let r := readFile parsable fs dataDir filename
    if r.success then .serve (r.data.getD []) else .notFound (r.error.getD [])

/-- JavaScript truthiness on JSON values: `!data` holds exactly for `null`,
`false`, `0` and the empty string (and for an absent field). -/
def isFalsy : Json → Bool
  | .null => true
  | .bool b => !b
  | .num n => n = 0
  | .str s => s.isEmpty
  | .arr _ => false
  | .obj _ => false

/-- `POST /api/file/:filename` behind `requireAuth` (modelled by
`isAuthenticated`): falsy `data` is rejected 400 before anything else; then
schema validation; then the store write.  `stringify` abstracts
`JSON.stringify(data, null, 2)`. -/
def postFile (check : Json → Json → Option (List Str)) (registry : Registry)
    (stringify : Json → Str) (flt : WriteFaults) (fs : FS)
    (dataDir historyDir filename ts : Str) (body : Option Json)
    (isAuthenticated : Bool) : HandlerResult × FS :=
  if !isAuthenticated then (.unauthorized, fs)
  else
    match body with
    | none => (.badRequest ("Data is required".toList), fs)
    | some d =>
        if isFalsy d then (.badRequest ("Data is required".toList), fs)
        else
          let v := validate check registry filename d
          if v.valid then
            let w := writeFile flt fs dataDir historyDir filename (stringify d) ts
            if w.2.success then (.success (stringify d), w.1)
            else (.serverError (w.2.error.getD []), w.1)
          else (.invalid (v.errors.getD []), fs)

/-- `PUT /api/file/:filename`: its handler body in the source is identical,
line for line, to the POST handler. -/
def putFile (check : Json → Json → Option (List Str)) (registry : Registry)
    (stringify : Json → Str) (flt : WriteFaults) (fs : FS)
    (dataDir historyDir filename ts : Str) (body : Option Json)
    (isAuthenticated : Bool) : HandlerResult × FS :=
  postFile check registry stringify flt fs dataDir historyDir filename ts
    body isAuthenticated

/-- JavaScript object-spread merge `{...a, ...b}` on field lists: keys of
`a` keep their order with values from `b` winning, new keys of `b` are
appended in order. -/
def jsMergeFields (a b : List (Str × Json)) : List (Str × Json) :=
  (a.map (fun p => match findKey b p.1 with
    | some v => (p.1, v)
    | none => p)) ++ b.filter (fun q => (findKey a q.1).isNone)

/-- `{...existing, ...data}` on JSON values: object operands contribute
their fields, non-object operands contribute none (string index-spreading
is not exercised by any claim here). -/
def jsMerge (a b : Json) : Json :=
  Json.obj (jsMergeFields
    (match a with | .obj f => f | _ => [])
    (match b with | .obj f => f | _ => []))

/-- `PATCH /api/file/:filename` behind `requireAuth`: falsy `data` is 400;
then the existing document is read (404 when absent or unreadable),
shallow-merged under the incoming top-level keys, the MERGED result is
validated and written.  `parseDoc` abstracts `JSON.parse` of the stored
bytes; a successful read implies it parses, so the `getD` default is never
served. -/
def patchFile (check : Json → Json → Option (List Str)) (registry : Registry)
    (parseDoc : Str → Option Json) (stringify : Json → Str) (flt : WriteFaults)
    (fs : FS) (dataDir historyDir filename ts : Str) (body : Option Json)
    (isAuthenticated : Bool) : HandlerResult × FS :=
  if !isAuthenticated then (.unauthorized, fs)
  else
    match body with
    | none => (.badRequest ("Data is required".toList), fs)
    | some d =>
        if isFalsy d then (.badRequest ("Data is required".toList), fs)
        else
          let r := readFile (fun s => (parseDoc s).isSome) fs dataDir filename
          if r.success then
            let merged := jsMerge ((parseDoc (r.data.getD [])).getD Json.null) d
            let v := validate check registry filename merged
            if v.valid then
              let w := writeFile flt fs dataDir historyDir filename
                (stringify merged) ts
              if w.2.success then (.success (stringify merged), w.1)
              else (.serverError (w.2.error.getD []), w.1)
            else (.invalid (v.errors.getD []), fs)
          else (.notFound ("File not found".toList), fs)

/-- A parse oracle accepting every stored document. -/
def parsableAll : Str → Bool := fun _ => true

/-- C4: the admin gate and the storage path are computed from different
names — `requiresAdmin` keys on the literal request string while the store
sanitises — so whenever `keyName` is admin-flagged but another spelling
`reqName` (itself not admin-flagged) resolves to the same sanitised path,
both `GET /data/:name` and `GET /api/file/:name` serve that very stored
document with no authentication; in particular `x` and `x.json` always
resolve to the same path, and a permission entry for `x.json` alone leaves
the spelling `x` ungated. -/
theorem C4_permission_bypass (perms : List (Str × Perm)) (parsable : Str → Bool)
    (fs : FS) (dataDir keyName reqName content : Str)
    (hreq : requiresAdmin perms reqName = false)
    (hpath : getFilePath dataDir reqName = getFilePath dataDir keyName)
    (hdoc : fsGet fs (getFilePath dataDir keyName) = some content)
    (hpar : parsable content = true) :
    dataGet perms parsable fs dataDir reqName false = .serve content
    ∧ apiFileGet perms parsable fs dataDir reqName false = .serve content
    ∧ getFilePath dataDir ("x".toList) = getFilePath dataDir ("x.json".toList)
    ∧ requiresAdmin [("x.json".toList, Perm.admin)] ("x".toList) = false
    ∧ requiresAdmin [("x.json".toList, Perm.admin)] ("x.json".toList) = true := by
  have hread : readFile parsable fs dataDir reqName =
      { success := true, data := some content } := by
    unfold readFile
    rw [hpath, hdoc]
    simp [hpar]
  refine ⟨?_, ?_, ?_, by decide, by decide⟩
  · unfold dataGet
    rw [hreq, if_neg Bool.false_ne_true, hread]
    rfl
  · unfold apiFileGet
    rw [hreq]
    rw [show (false && !false) = false from rfl, if_neg Bool.false_ne_true, hread]
    rfl
  · unfold getFilePath
    exact congrArg (dataDir ++ ·) (by decide)

/-- Witness for C4: with the permission map gating only `x.json`, the
spelling `x` reads the stored document on both routes with no session. -/
theorem C4_permission_bypass_witness :
    dataGet [("x.json".toList, Perm.admin)] parsableAll
      [(getFilePath ("d".toList) ("x.json".toList), "doc".toList)]
      ("d".toList) ("x".toList) false = .serve ("doc".toList)
    ∧ apiFileGet [("x.json".toList, Perm.admin)] parsableAll
      [(getFilePath ("d".toList) ("x.json".toList), "doc".toList)]
      ("d".toList) ("x".toList) false = .serve ("doc".toList) := by
  have h := C4_permission_bypass [("x.json".toList, Perm.admin)] parsableAll
    [(getFilePath ("d".toList) ("x.json".toList), "doc".toList)]
    ("d".toList) ("x.json".toList) ("x".toList) ("doc".toList)
    (by decide) (by decide) (by decide) rfl
  exact ⟨h.1, h.2.1⟩

/-- C5 counterexample: for an admin-flagged name, `GET /data/:name` answers
401 even when the request carries a valid session — the handler never
consults any session — contradicting the claim that a valid session reads
the document (200, or 404 when absent). -/
theorem C5_data_route_counterexample :
    dataGet [("m".toList, Perm.admin)] parsableAll
      [(getFilePath ("d".toList) ("m".toList), "doc".toList)]
      ("d".toList) ("m".toList) true = .unauthorized
    ∧ HandlerResult.unauthorized.status = 401 :=
  ⟨rfl, rfl⟩

/-- C5 (amended): on `GET /data/:name` an admin-flagged name is rejected
401 regardless of any session, valid or not (the route performs no session
check at all; authenticated reads of such names exist only on
`/api/file/:name`); names not marked admin are readable without
authentication — the stored document is served when present and parsable,
404 when absent. -/
theorem C5_data_route (perms : List (Str × Perm)) (parsable : Str → Bool)
    (fs : FS) (dataDir name content : Str) (sess : Bool) :
    (requiresAdmin perms name = true →
      dataGet perms parsable fs dataDir name sess = .unauthorized)
    ∧ (requiresAdmin perms name = false →
        fsGet fs (getFilePath dataDir name) = some content →
        parsable content = true →
        dataGet perms parsable fs dataDir name sess = .serve content)
    ∧ (requiresAdmin perms name = false →
        fsGet fs (getFilePath dataDir name) = none →
        dataGet perms parsable fs dataDir name sess =
          .notFound ("File not found".toList)) := by
  refine ⟨?_, ?_, ?_⟩
  · intro h
    unfold dataGet
    rw [h, if_pos rfl]
  · intro h hdoc hpar
    unfold dataGet
    rw [h, if_neg Bool.false_ne_true]
    unfold readFile
    rw [hdoc]
    simp [hpar]
  · intro h hnone
    unfold dataGet
    rw [h, if_neg Bool.false_ne_true]
    unfold readFile
    rw [hnone]
    rfl

/-- Witness for C5 (amended): a non-admin name is served unauthenticated;
an admin name is 401 even with a valid session. -/
theorem C5_data_route_witness :
    dataGet [("m".toList, Perm.admin)] parsableAll
      [(getFilePath ("d".toList) ("p".toList), "doc".toList)]
      ("d".toList) ("p".toList) false = .serve ("doc".toList)
    ∧ dataGet [("m".toList, Perm.admin)] parsableAll
      [(getFilePath ("d".toList) ("p".toList), "doc".toList)]
      ("d".toList) ("m".toList) true = .unauthorized := by
  constructor
  · exact (C5_data_route [("m".toList, Perm.admin)] parsableAll
      [(getFilePath ("d".toList) ("p".toList), "doc".toList)]
      ("d".toList) ("p".toList) ("doc".toList) false).2.1
      (by decide) (by decide) rfl
  · exact (C5_data_route [("m".toList, Perm.admin)] parsableAll
      [(getFilePath ("d".toList) ("p".toList), "doc".toList)]
      ("d".toList) ("m".toList) ("doc".toList) true).1 (by decide)

/-- C10: on POST, PUT and PATCH with an authenticated session, a body whose
`data` field is a falsy JSON value — `false`, `0`, the empty string or
`null` — is rejected 400 `Data is required` exactly as when the field is
absent; the store is returned untouched and, since the equations hold for
every `check`, `registry` and fault pattern, no schema validation or write
is performed. -/
theorem C10_falsy_data (check : Json → Json → Option (List Str))
    (registry : Registry) (stringify : Json → Str)
    (parseDoc : Str → Option Json) (flt : WriteFaults) (fs : FS)
    (dataDir historyDir filename ts : Str) (d : Json)
    (hf : isFalsy d = true) :
    postFile check registry stringify flt fs dataDir historyDir filename ts
      (some d) true = (.badRequest ("Data is required".toList), fs)
    ∧ postFile check registry stringify flt fs dataDir historyDir filename ts
      none true = (.badRequest ("Data is required".toList), fs)
    ∧ putFile check registry stringify flt fs dataDir historyDir filename ts
      (some d) true = (.badRequest ("Data is required".toList), fs)
    ∧ patchFile check registry parseDoc stringify flt fs dataDir historyDir
      filename ts (some d) true = (.badRequest ("Data is required".toList), fs)
    ∧ patchFile check registry parseDoc stringify flt fs dataDir historyDir
      filename ts none true = (.badRequest ("Data is required".toList), fs)
    ∧ isFalsy (Json.bool false) = true ∧ isFalsy (Json.num 0) = true
    ∧ isFalsy (Json.str []) = true ∧ isFalsy Json.null = true := by
  refine ⟨?_, rfl, ?_, ?_, rfl, rfl, by decide, rfl, rfl⟩
  · unfold postFile
    simp [hf]
  · unfold putFile postFile
    simp [hf]
  · unfold patchFile
    simp [hf]

/-- Witness for C10: the falsy value `0` as `data` is rejected exactly like
an absent field, with the store unchanged. -/
theorem C10_falsy_data_witness :
    postFile checkReject [] (fun _ => []) {} [] ("d".toList) ("h".toList)
      ("f".toList) ("t".toList) (some (Json.num 0)) true =
      (.badRequest ("Data is required".toList), [])
    ∧ patchFile checkReject [] parseEx (fun _ => []) {} [] ("d".toList)
      ("h".toList) ("f".toList) ("t".toList) (some (Json.num 0)) true =
      (.badRequest ("Data is required".toList), []) := by
  have h := C10_falsy_data checkReject [] (fun _ => []) parseEx {} []
    ("d".toList) ("h".toList) ("f".toList) ("t".toList) (Json.num 0) (by decide)
  exact ⟨h.1, h.2.2.2.1⟩
